import Mathlib

/-!
Shallow embedding of the grid word-search solver (`resquare/script.js`).

Strings are modelled as `List Char`; JavaScript `Set`s are modelled as
duplicate-free lists built with `setAdd`; the DOM/UI glue is out of scope.
The solver's explicit-stack DFS loop is modelled with a fuel parameter;
`searchFuel` is large enough that the fuel is never exhausted (proved below).
-/

set_option maxHeartbeats 1600000

namespace Resquare

/-- Source constant `GRID_SIZE = 4`. -/
def GRID_SIZE : Nat := 4

/-- Source constant `MIN_WORD_LENGTH = 4`. -/
def MIN_WORD_LENGTH : Nat := 4

/-- Source constant `MAX_WORD_LENGTH = 8`. -/
def MAX_WORD_LENGTH : Nat := 8

/-- The 8 neighbour offsets, in source order. -/
def DIRECTIONS : List (Int × Int) :=
  [(-1, -1), (-1, 0), (-1, 1),
   ( 0, -1),          ( 0, 1),
   ( 1, -1), ( 1, 0), ( 1, 1)]

/-- Source `isValid(row, col)`: bounds check against `GRID_SIZE`. -/
def isValid (row col : Int) : Bool :=
  decide (0 ≤ row) && decide (row < (GRID_SIZE : Int)) &&
  decide (0 ≤ col) && decide (col < (GRID_SIZE : Int))

/-- A word: a JavaScript string, as its list of characters. -/
abbrev Word := List Char

/-- JavaScript `String.prototype.trim()`: drop whitespace from both ends. -/
def trimList (s : Word) : Word :=
  ((s.dropWhile Char.isWhitespace).reverse.dropWhile Char.isWhitespace).reverse

/-- The cleaning `word.trim().toLowerCase()` applied to a raw dictionary line. -/
def cleanWord (s : Word) : Word :=
  (trimList s).map Char.toLower

/-- The test of the letters-only pattern: non-empty and every character in `a`..`z`. -/
def isLowerAlpha (s : Word) : Bool :=
  !s.isEmpty && s.all (fun c => decide ('a' ≤ c) && decide (c ≤ 'z'))

/-- JavaScript `Set.prototype.add`: append the element unless already present. -/
def setAdd {α : Type} [DecidableEq α] (s : List α) (a : α) : List α :=
  if a ∈ s then s else s ++ [a]

/-- The dictionary index: the two derived sets built by `loadDictionary`. -/
structure DictIndex where
  wordSet : List Word
  prefixSet : List Word

/-- The prefix-insertion loop `for (let i = 1; i <= n; i++) prefixSet.add(w.substring(0, i))`. -/
def addPrefixes (ps : List Word) (w : Word) : Nat → List Word
  | 0 => ps
  | n + 1 => setAdd (addPrefixes ps w n) (w.take (n + 1))

/-- The body of the `words.forEach` classification in `loadDictionary`:
trim/lowercase the line, then the three-way length classification. -/
def processLine (st : DictIndex) (word : Word) : DictIndex :=
  let cleanedWord := cleanWord word
  if MIN_WORD_LENGTH ≤ cleanedWord.length ∧ cleanedWord.length ≤ MAX_WORD_LENGTH ∧
      isLowerAlpha cleanedWord = true then
    { wordSet := setAdd st.wordSet cleanedWord,
      prefixSet := addPrefixes st.prefixSet cleanedWord cleanedWord.length }
  else if MAX_WORD_LENGTH < cleanedWord.length ∧ isLowerAlpha cleanedWord = true then
    { st with prefixSet := addPrefixes st.prefixSet cleanedWord MAX_WORD_LENGTH }
  else if 0 < cleanedWord.length ∧ cleanedWord.length < MIN_WORD_LENGTH ∧
      isLowerAlpha cleanedWord = true then
    { st with prefixSet := addPrefixes st.prefixSet cleanedWord cleanedWord.length }
  else st

/-- Source `loadDictionary` index construction: fold the classification over the raw lines. -/
def loadDictionary (rawLines : List Word) : DictIndex :=
  rawLines.foldl processLine ⟨[], []⟩

/-- Outcome of `loadDictionary` including the `dictionaryLoaded` flag:
the flag is set only when `wordSet.size !== 0`; otherwise the function
shows the empty-dictionary error status and leaves the flag unset. -/
structure LoadResult where
  index : DictIndex
  dictionaryLoaded : Bool

/-- Build the index and set `dictionaryLoaded` exactly when `wordSet` is non-empty. -/
def loadDictionaryRun (rawLines : List Word) : LoadResult :=
  let idx := loadDictionary rawLines
  ⟨idx, !idx.wordSet.isEmpty⟩

/-- Source `getGridLetters`: validate the 16 cleaned one-letter cells and build the
row-major `GRID_SIZE × GRID_SIZE` grid; `none` models the `null` failure return. -/
def getGridLetters (inputs : List Word) : Option (List (List Char)) :=
  if inputs.length ≠ GRID_SIZE * GRID_SIZE then none
  else
    let letters := inputs.map cleanWord
    if letters.any (fun l =>
        !(decide (l.length = 1) && l.all (fun c => decide ('a' ≤ c) && decide (c ≤ 'z')))) then
      none
    else
      some ((List.range GRID_SIZE).map fun r =>
        (List.range GRID_SIZE).map fun c => (letters.getD (r * GRID_SIZE + c) []).headD ' ')

/-- A populated grid, as a letter-valued function of (row, column); the search
only reads cells that pass `isValid`. -/
abbrev Grid := Int → Int → Char

/-- View the row-major matrix built by `getGridLetters` as a `Grid`. -/
def gridOfRows (rows : List (List Char)) : Grid :=
  fun r c => ((rows.getD r.toNat []).getD c.toNat ' ')

/-- JavaScript string comparison (`Array.prototype.sort` default order),
restricted to the characters in play: lexicographic on code points. -/
def lexLe : Word → Word → Bool
  | [], _ => true
  | _ :: _, [] => false
  | a :: as, b :: bs => if a < b then true else if b < a then false else lexLe as bs

/-- The order `lexLe` as a relation, for `List.insertionSort`. -/
def lexRel (a b : Word) : Prop := lexLe a b = true

instance : DecidableRel lexRel := fun a b => inferInstanceAs (Decidable (lexLe a b = true))

/-- One DFS stack entry `[row, col, currentWord, visitedSet]`; the visited set
is kept in insertion order, which is exactly the path taken. -/
structure Frame where
  row : Int
  col : Int
  currentWord : Word
  visited : List (Int × Int)

/-- The body of the `for (const [dr, dc] of DIRECTIONS)` loop of one DFS step:
push the neighbour frame for offset `d` when in bounds, unvisited, and the
extended candidate is a known prefix. -/
def expandStep (grid : Grid) (dict : DictIndex) (fr : Frame) (acc : List Frame) (d : Int × Int) :
    List Frame :=
  let nextRow := fr.row + d.1
  let nextCol := fr.col + d.2
  if isValid nextRow nextCol = true ∧ (nextRow, nextCol) ∉ fr.visited then
    let nextWord := fr.currentWord ++ [grid nextRow nextCol]
    if nextWord ∈ dict.prefixSet then
      Frame.mk nextRow nextCol nextWord (setAdd fr.visited (nextRow, nextCol)) :: acc
    else acc
  else acc

/-- The frames pushed for the popped frame `fr`, topmost first. -/
def expandFrame (grid : Grid) (dict : DictIndex) (fr : Frame) : List Frame :=
  DIRECTIONS.foldl (expandStep grid dict fr) []

/-- The `while (stack.length > 0)` loop of `findWordsFromCell`, with fuel;
`none` signals fuel exhaustion (shown below never to happen at `searchFuel`). -/
def searchLoop (grid : Grid) (dict : DictIndex) : Nat → List Frame → List Word → Option (List Word)
  | _, [], found => some found
  | 0, _ :: _, _ => none
  | fuel + 1, fr :: rest, found =>
    let currentLen := fr.currentWord.length
    let found1 :=
      if MIN_WORD_LENGTH ≤ currentLen ∧ currentLen ≤ MAX_WORD_LENGTH ∧
          fr.currentWord ∈ dict.wordSet then
        setAdd found fr.currentWord
      else found
    let stack1 := (if currentLen < MAX_WORD_LENGTH then expandFrame grid dict fr else []) ++ rest
    searchLoop grid dict fuel stack1 found1

/-- Fuel bound: the measure of the initial one-frame stack (see `searchLoop_isSome`). -/
def searchFuel : Nat := 9 ^ MAX_WORD_LENGTH

/-- The initial stack of `findWordsFromCell`: one frame when the starting
letter is a known prefix, otherwise empty. -/
def initStack (startRow startCol : Int) (grid : Grid) (dict : DictIndex) : List Frame :=
  let startChar := grid startRow startCol
  if [startChar] ∈ dict.prefixSet then
    [Frame.mk startRow startCol [startChar] [(startRow, startCol)]]
  else []

/-- Source `findWordsFromCell(startRow, startCol, grid)`: run the DFS loop and return
the found words sorted (`Array.from(foundWords).sort()`). -/
def findWordsFromCell (startRow startCol : Int) (grid : Grid) (dict : DictIndex) : List Word :=
  List.insertionSort lexRel ((searchLoop grid dict searchFuel (initStack startRow startCol grid dict) []).getD [])

/-- The result key `` `${r},${c}` `` as a character list. -/
def keyOf (r c : Nat) : List Char :=
  (Nat.repr r).data ++ [','] ++ (Nat.repr c).data

/-- The cells visited by `solve`'s nested `for` loops, in row-major order. -/
def cellList : List (Nat × Nat) :=
  (List.range GRID_SIZE).flatMap fun r => (List.range GRID_SIZE).map fun c => (r, c)

/-- The aggregate produced by `solve`'s search phase. -/
structure SearchReport where
  allFoundWords : List (List Char × List Word)
  uniqueWords : List Word
  totalInstances : Nat
  sortedKeys : List (List Char)

/-- One iteration of `solve`'s cell loop: record non-empty per-cell results,
accumulate the unique-word set and the instance counter. -/
def solveStep (grid : Grid) (dict : DictIndex)
    (acc : List (List Char × List Word) × List Word × Nat) (rc : Nat × Nat) :
    List (List Char × List Word) × List Word × Nat :=
  let words := findWordsFromCell rc.1 rc.2 grid dict
  if words.isEmpty then acc
  else (acc.1 ++ [(keyOf rc.1 rc.2, words)], words.foldl setAdd acc.2.1, acc.2.2 + words.length)

/-- The search-and-aggregate phase of `solve` (inside the `setTimeout` callback). -/
def searchAll (grid : Grid) (dict : DictIndex) : SearchReport :=
  let t := cellList.foldl (solveStep grid dict) ([], [], 0)
  { allFoundWords := t.1
    uniqueWords := t.2.1
    totalInstances := t.2.2
    sortedKeys := List.insertionSort lexRel (t.1.map Prod.fst) }

/-- Source `solve()`: refuse when the dictionary is not loaded or the grid is invalid
(`none` models the early error returns); otherwise run the full-grid search. -/
def solve (ld : LoadResult) (inputs : List Word) : Option SearchReport :=
  if ld.dictionaryLoaded = true then
    match getGridLetters inputs with
    | some rows => some (searchAll (gridOfRows rows) ld.index)
    | none => none
  else none

/-- One legal move between cells: the offset is one of the 8 `DIRECTIONS` and
the destination is in bounds. -/
def adjacentStep (a b : Int × Int) : Prop :=
  (b.1 - a.1, b.2 - a.2) ∈ DIRECTIONS ∧ isValid b.1 b.2 = true

/-- The letters spelled along a path of coordinates. -/
def pathSpells (grid : Grid) (p : List (Int × Int)) : Word :=
  p.map fun rc => grid rc.1 rc.2

/-- The word `w` is explained by a duplicate-free adjacent path from the given start. -/
def ExplainedBy (grid : Grid) (startRow startCol : Int) (w : Word) : Prop :=
  ∃ p : List (Int × Int), p.head? = some (startRow, startCol) ∧ p.Nodup ∧
    p.Chain' adjacentStep ∧ pathSpells grid p = w

/-- The per-frame stack invariant: the visited list is itself the path that
produced the frame — it starts at the start cell, ends at the frame's cell,
has no duplicates, takes only legal moves, and spells the candidate string. -/
def GoodFrame (grid : Grid) (startRow startCol : Int) (fr : Frame) : Prop :=
  fr.visited.head? = some (startRow, startCol) ∧
  fr.visited.getLast? = some (fr.row, fr.col) ∧
  fr.visited.Nodup ∧
  fr.visited.Chain' adjacentStep ∧
  pathSpells grid fr.visited = fr.currentWord

/-- Termination measure of one frame. -/
def frameMeasure (fr : Frame) : Nat :=
  9 ^ (MAX_WORD_LENGTH + 1 - fr.currentWord.length)

/-- Termination measure of a stack. -/
def stackMeasure (s : List Frame) : Nat :=
  (s.map frameMeasure).sum

/-- The spec's concrete demo grid. -/
def demoRows : List (List Char) :=
  [['c', 'a', 't', 's'], ['o', 'r', 'e', 'n'], ['g', 'l', 'a', 'd'], ['x', 'y', 'z', 'q']]

/-- The demo grid as a `Grid`. -/
def demoGrid : Grid := gridOfRows demoRows

/-- The spec's concrete demo dictionary lines: cat, cats, car, care, carol. -/
def demoRaw : List Word :=
  [['c', 'a', 't'], ['c', 'a', 't', 's'], ['c', 'a', 'r'],
   ['c', 'a', 'r', 'e'], ['c', 'a', 'r', 'o', 'l']]

/-- The demo dictionary index. -/
def demoDict : DictIndex := loadDictionary demoRaw

/-- A raw dictionary line of 9 letters (longer than `MAX_WORD_LENGTH`). -/
def demoLongLine : Word := ['a', 'b', 'c', 'd', 'e', 'f', 'g', 'h', 'i']

/-- Sixteen valid one-letter grid inputs. -/
def demoInputs : List Word := demoRows.flatMap fun row => row.map fun c => [c]

/-- The dictionary-index invariant maintained by `processLine`: every word in
`wordSet` has in-window length, and all of its non-empty prefixes are in
`prefixSet`. -/
def dictInv (st : DictIndex) : Prop :=
  ∀ w ∈ st.wordSet,
    (MIN_WORD_LENGTH ≤ w.length ∧ w.length ≤ MAX_WORD_LENGTH) ∧
    ∀ i, 1 ≤ i → i ≤ w.length → w.take i ∈ st.prefixSet

theorem mem_setAdd {α : Type} [DecidableEq α] {s : List α} {b a : α} :
    a ∈ setAdd s b ↔ a ∈ s ∨ a = b := by
  unfold setAdd
  split
  · rename_i hb
    constructor
    · exact Or.inl
    · rintro (h | rfl)
      · exact h
      · exact hb
  · simp

theorem setAdd_nodup {α : Type} [DecidableEq α] {s : List α} {b : α} (h : s.Nodup) :
    (setAdd s b).Nodup := by
  unfold setAdd
  split
  · exact h
  · rename_i hb
    simpa [List.nodup_append, h] using hb

theorem mem_addPrefixes {ps : List Word} {w : Word} {n : Nat} {a : Word} :
    a ∈ addPrefixes ps w n ↔ a ∈ ps ∨ ∃ i, 1 ≤ i ∧ i ≤ n ∧ a = w.take i := by
  induction n with
  | zero =>
    simp only [addPrefixes]
    constructor
    · exact Or.inl
    · rintro (h | ⟨i, h1, h2, _⟩)
      · exact h
      · omega
  | succ n ih =>
    simp only [addPrefixes, mem_setAdd, ih]
    constructor
    · rintro ((h | ⟨i, h1, h2, rfl⟩) | rfl)
      · exact Or.inl h
      · exact Or.inr ⟨i, h1, by omega, rfl⟩
      · exact Or.inr ⟨n + 1, by omega, by omega, rfl⟩
    · rintro (h | ⟨i, h1, h2, rfl⟩)
      · exact Or.inl (Or.inl h)
      · rcases Nat.lt_or_ge i (n + 1) with hi | hi
        · exact Or.inl (Or.inr ⟨i, h1, by omega, rfl⟩)
        · have : i = n + 1 := by omega
          subst this
          exact Or.inr rfl

theorem addPrefixes_mono {ps : List Word} {w : Word} {n : Nat} {a : Word} (h : a ∈ ps) :
    a ∈ addPrefixes ps w n :=
  mem_addPrefixes.mpr (Or.inl h)

theorem take_mem_addPrefixes {ps : List Word} {w : Word} {n i : Nat}
    (h1 : 1 ≤ i) (h2 : i ≤ n) : w.take i ∈ addPrefixes ps w n :=
  mem_addPrefixes.mpr (Or.inr ⟨i, h1, h2, rfl⟩)

theorem processLine_prefixSet_mono {st : DictIndex} {l : Word} {a : Word}
    (h : a ∈ st.prefixSet) : a ∈ (processLine st l).prefixSet := by
  simp only [processLine]
  split_ifs <;> simp [mem_addPrefixes, h]

theorem processLine_wordSet_mem {st : DictIndex} {l : Word} {a : Word} :
    a ∈ (processLine st l).wordSet ↔
      a ∈ st.wordSet ∨
      ((MIN_WORD_LENGTH ≤ (cleanWord l).length ∧ (cleanWord l).length ≤ MAX_WORD_LENGTH ∧
        isLowerAlpha (cleanWord l) = true) ∧ a = cleanWord l) := by
  simp only [processLine]
  split_ifs with h1 h2 h3 <;> simp [mem_setAdd, h1]

theorem processLine_dictInv {st : DictIndex} {l : Word} (h : dictInv st) :
    dictInv (processLine st l) := by
  intro w hw
  rcases processLine_wordSet_mem.mp hw with hold | ⟨⟨hmin, hmax, halpha⟩, rfl⟩
  · obtain ⟨hb, hp⟩ := h w hold
    exact ⟨hb, fun i h1 h2 => processLine_prefixSet_mono (hp i h1 h2)⟩
  · refine ⟨⟨hmin, hmax⟩, fun i h1 h2 => ?_⟩
    simp only [processLine]
    split_ifs with hc1 hc2 hc3
    · simp only [mem_addPrefixes]
      exact Or.inr ⟨i, h1, h2, rfl⟩
    · exact absurd ⟨hmin, hmax, halpha⟩ hc1
    · exact absurd ⟨hmin, hmax, halpha⟩ hc1
    · exact absurd ⟨hmin, hmax, halpha⟩ hc1

theorem foldl_processLine_dictInv {st : DictIndex} (ls : List Word) (h : dictInv st) :
    dictInv (ls.foldl processLine st) := by
  induction ls generalizing st with
  | nil => exact h
  | cons l ls ih => exact ih (processLine_dictInv h)

theorem loadDictionary_dictInv (rawLines : List Word) : dictInv (loadDictionary rawLines) := by
  unfold loadDictionary
  exact foldl_processLine_dictInv rawLines (by intro w hw; simp at hw)

/-- C1: on the grid [[c,a,t,s],[o,r,e,n],[g,l,a,d],[x,y,z,q]] with the dictionary
built from the raw lines cat, cats, car, care, carol, the per-cell search from
(0,0) reports `cats` and `care`, and no starting cell reports `cat` or `car`. -/
theorem claim1 :
    ['c', 'a', 't', 's'] ∈ findWordsFromCell 0 0 demoGrid demoDict ∧
    ['c', 'a', 'r', 'e'] ∈ findWordsFromCell 0 0 demoGrid demoDict ∧
    (∀ r : Fin 4, ∀ c : Fin 4,
      ['c', 'a', 't'] ∉ findWordsFromCell (r.1 : Int) (c.1 : Int) demoGrid demoDict ∧
      ['c', 'a', 'r'] ∉ findWordsFromCell (r.1 : Int) (c.1 : Int) demoGrid demoDict) := by
  decide

/-- C2: a cleaned all-letter raw line longer than `MAX_WORD_LENGTH` contributes
exactly its prefixes of lengths 1..`MAX_WORD_LENGTH` to the prefix set and is
never added to the word set; a cleaned all-letter line of positive length below
`MIN_WORD_LENGTH` contributes exactly its prefixes of lengths 1..length and is
never added to the word set. -/
theorem claim2 (st : DictIndex) (line : Word)
    (halpha : isLowerAlpha (cleanWord line) = true) :
    (MAX_WORD_LENGTH < (cleanWord line).length →
      (processLine st line).wordSet = st.wordSet ∧
      ∀ a, a ∈ (processLine st line).prefixSet ↔
        a ∈ st.prefixSet ∨
        ∃ i, 1 ≤ i ∧ i ≤ MAX_WORD_LENGTH ∧ a = (cleanWord line).take i) ∧
    (0 < (cleanWord line).length → (cleanWord line).length < MIN_WORD_LENGTH →
      (processLine st line).wordSet = st.wordSet ∧
      ∀ a, a ∈ (processLine st line).prefixSet ↔
        a ∈ st.prefixSet ∨
        ∃ i, 1 ≤ i ∧ i ≤ (cleanWord line).length ∧ a = (cleanWord line).take i) := by
  constructor
  · intro hlen
    simp only [processLine]
    split_ifs with h1 h2 h3
    · exact absurd h1.2.1 (by omega)
    · refine ⟨rfl, fun a => ?_⟩
      simp only [mem_addPrefixes]
    · exact absurd ⟨hlen, halpha⟩ h2
    · exact absurd ⟨hlen, halpha⟩ h2
  · intro hpos hlt
    have hmm : MIN_WORD_LENGTH ≤ MAX_WORD_LENGTH := by decide
    simp only [processLine]
    split_ifs with h1 h2 h3
    · exact absurd h1.1 (by omega)
    · exact absurd h2.1 (by omega)
    · refine ⟨rfl, fun a => ?_⟩
      simp only [mem_addPrefixes]
    · exact absurd ⟨hpos, hlt, halpha⟩ h3

/-- Witness for C2 at the 9-letter line `abcdefghi` and the empty index. -/
theorem claim2_witness :
    isLowerAlpha (cleanWord demoLongLine) = true ∧
    (processLine ⟨[], []⟩ demoLongLine).wordSet = [] :=
  ⟨by decide, ((claim2 ⟨[], []⟩ demoLongLine (by decide)).1 (by decide)).1⟩

/-- C3: after the dictionary index is built from any raw word list, every
non-empty prefix of every word in the word set is in the prefix set. -/
theorem claim3 (rawLines : List Word) (w : Word)
    (hw : w ∈ (loadDictionary rawLines).wordSet)
    (i : Nat) (h1 : 1 ≤ i) (h2 : i ≤ w.length) :
    w.take i ∈ (loadDictionary rawLines).prefixSet :=
  ((loadDictionary_dictInv rawLines) w hw).2 i h1 h2

/-- Witness for C3 at the demo raw lines, the word `cats` and prefix length 2. -/
theorem claim3_witness :
    ['c', 'a', 't', 's'] ∈ (loadDictionary demoRaw).wordSet ∧
    List.take 2 ['c', 'a', 't', 's'] ∈ (loadDictionary demoRaw).prefixSet :=
  ⟨by decide, claim3 demoRaw ['c', 'a', 't', 's'] (by decide) 2 (by decide) (by decide)⟩

/-- C10: after the dictionary index is built from any raw word list, the word
set is contained in the prefix set. -/
theorem claim10 (rawLines : List Word) (w : Word)
    (hw : w ∈ (loadDictionary rawLines).wordSet) :
    w ∈ (loadDictionary rawLines).prefixSet := by
  obtain ⟨⟨hmin, _⟩, hp⟩ := loadDictionary_dictInv rawLines w hw
  have h := hp w.length (le_trans (by decide : (1 : Nat) ≤ MIN_WORD_LENGTH) hmin) le_rfl
  simpa [List.take_length] using h

/-- Witness for C10 at the demo raw lines and the word `cats`. -/
theorem claim10_witness :
    ['c', 'a', 't', 's'] ∈ (loadDictionary demoRaw).wordSet ∧
    ['c', 'a', 't', 's'] ∈ (loadDictionary demoRaw).prefixSet :=
  ⟨by decide, claim10 demoRaw ['c', 'a', 't', 's'] (by decide)⟩

theorem mem_expandStep_foldl (grid : Grid) (dict : DictIndex) (fr : Frame) :
    ∀ (ds : List (Int × Int)) (acc : List Frame) (g : Frame),
      g ∈ ds.foldl (expandStep grid dict fr) acc ↔
        g ∈ acc ∨ ∃ d ∈ ds,
          (isValid (fr.row + d.1) (fr.col + d.2) = true ∧
           (fr.row + d.1, fr.col + d.2) ∉ fr.visited ∧
           fr.currentWord ++ [grid (fr.row + d.1) (fr.col + d.2)] ∈ dict.prefixSet) ∧
          g = Frame.mk (fr.row + d.1) (fr.col + d.2)
                (fr.currentWord ++ [grid (fr.row + d.1) (fr.col + d.2)])
                (setAdd fr.visited (fr.row + d.1, fr.col + d.2)) := by
  intro ds
  induction ds with
  | nil => simp
  | cons d ds ih =>
    intro acc g
    rw [List.foldl_cons, ih]
    simp only [expandStep]
    split_ifs with h1 h2
    · simp only [List.mem_cons]
      constructor
      · rintro ((rfl | hg) | ⟨e, he, hc, rfl⟩)
        · exact Or.inr ⟨d, Or.inl rfl, ⟨h1.1, h1.2, h2⟩, rfl⟩
        · exact Or.inl hg
        · exact Or.inr ⟨e, Or.inr he, hc, rfl⟩
      · rintro (hg | ⟨e, rfl | he', hc, rfl⟩)
        · exact Or.inl (Or.inr hg)
        · exact Or.inl (Or.inl rfl)
        · exact Or.inr ⟨e, he', hc, rfl⟩
    · constructor
      · rintro (hg | ⟨e, he, hc, rfl⟩)
        · exact Or.inl hg
        · exact Or.inr ⟨e, List.mem_cons_of_mem d he, hc, rfl⟩
      · rintro (hg | ⟨e, he, hc, rfl⟩)
        · exact Or.inl hg
        · rcases List.mem_cons.mp he with rfl | he'
          · exact absurd hc.2.2 h2
          · exact Or.inr ⟨e, he', hc, rfl⟩
    · constructor
      · rintro (hg | ⟨e, he, hc, rfl⟩)
        · exact Or.inl hg
        · exact Or.inr ⟨e, List.mem_cons_of_mem d he, hc, rfl⟩
      · rintro (hg | ⟨e, he, hc, rfl⟩)
        · exact Or.inl hg
        · rcases List.mem_cons.mp he with rfl | he'
          · exact absurd ⟨hc.1, hc.2.1⟩ h1
          · exact Or.inr ⟨e, he', hc, rfl⟩

theorem mem_expandFrame {grid : Grid} {dict : DictIndex} {fr g : Frame} :
    g ∈ expandFrame grid dict fr ↔
      ∃ d ∈ DIRECTIONS,
        (isValid (fr.row + d.1) (fr.col + d.2) = true ∧
         (fr.row + d.1, fr.col + d.2) ∉ fr.visited ∧
         fr.currentWord ++ [grid (fr.row + d.1) (fr.col + d.2)] ∈ dict.prefixSet) ∧
        g = Frame.mk (fr.row + d.1) (fr.col + d.2)
              (fr.currentWord ++ [grid (fr.row + d.1) (fr.col + d.2)])
              (setAdd fr.visited (fr.row + d.1, fr.col + d.2)) := by
  rw [expandFrame, mem_expandStep_foldl]
  simp

theorem foldl_expandStep_length (grid : Grid) (dict : DictIndex) (fr : Frame) :
    ∀ (ds : List (Int × Int)) (acc : List Frame),
      (ds.foldl (expandStep grid dict fr) acc).length ≤ acc.length + ds.length := by
  intro ds
  induction ds with
  | nil => simp
  | cons d ds ih =>
    intro acc
    rw [List.foldl_cons]
    refine le_trans (ih _) ?_
    have hstep : (expandStep grid dict fr acc d).length ≤ acc.length + 1 := by
      simp only [expandStep]
      split_ifs <;> simp
    simp only [List.length_cons]
    omega

theorem expandFrame_length_le (grid : Grid) (dict : DictIndex) (fr : Frame) :
    (expandFrame grid dict fr).length ≤ 8 := by
  have h := foldl_expandStep_length grid dict fr DIRECTIONS []
  simpa [DIRECTIONS] using h

theorem expandFrame_currentWord_length {grid : Grid} {dict : DictIndex} {fr g : Frame}
    (h : g ∈ expandFrame grid dict fr) :
    g.currentWord.length = fr.currentWord.length + 1 := by
  obtain ⟨d, _, _, rfl⟩ := mem_expandFrame.mp h
  simp

theorem searchLoop_nil (grid : Grid) (dict : DictIndex) (fuel : Nat) (found : List Word) :
    searchLoop grid dict fuel [] found = some found := by
  cases fuel <;> rfl

theorem searchLoop_zero_cons (grid : Grid) (dict : DictIndex) (fr : Frame)
    (rest : List Frame) (found : List Word) :
    searchLoop grid dict 0 (fr :: rest) found = none := rfl

theorem searchLoop_succ_cons (grid : Grid) (dict : DictIndex) (fuel : Nat) (fr : Frame)
    (rest : List Frame) (found : List Word) :
    searchLoop grid dict (fuel + 1) (fr :: rest) found =
      searchLoop grid dict fuel
        ((if fr.currentWord.length < MAX_WORD_LENGTH then expandFrame grid dict fr else []) ++ rest)
        (if MIN_WORD_LENGTH ≤ fr.currentWord.length ∧ fr.currentWord.length ≤ MAX_WORD_LENGTH ∧
            fr.currentWord ∈ dict.wordSet then
          setAdd found fr.currentWord
        else found) := rfl

theorem searchLoop_found_bounds {grid : Grid} {dict : DictIndex} :
    ∀ (fuel : Nat) (stack : List Frame) (found res : List Word),
      (∀ w ∈ found, MIN_WORD_LENGTH ≤ w.length ∧ w.length ≤ MAX_WORD_LENGTH) →
      searchLoop grid dict fuel stack found = some res →
      ∀ w ∈ res, MIN_WORD_LENGTH ≤ w.length ∧ w.length ≤ MAX_WORD_LENGTH := by
  intro fuel
  induction fuel with
  | zero =>
    intro stack found res hf hrun
    cases stack with
    | nil =>
      rw [searchLoop_nil] at hrun
      cases hrun
      exact hf
    | cons fr rest =>
      rw [searchLoop_zero_cons] at hrun
      cases hrun
  | succ n ih =>
    intro stack found res hf hrun
    cases stack with
    | nil =>
      rw [searchLoop_nil] at hrun
      cases hrun
      exact hf
    | cons fr rest =>
      rw [searchLoop_succ_cons] at hrun
      refine ih _ _ _ ?_ hrun
      intro w hw
      split_ifs at hw with hcond
      · rcases mem_setAdd.mp hw with hw' | rfl
        · exact hf w hw'
        · exact ⟨hcond.1, hcond.2.1⟩
      · exact hf w hw

/-- C4: every word reported by the per-cell search has length between
`MIN_WORD_LENGTH` and `MAX_WORD_LENGTH`, for every grid, starting cell and
dictionary index. -/
theorem claim4 (grid : Grid) (dict : DictIndex) (startRow startCol : Int) (w : Word)
    (hw : w ∈ findWordsFromCell startRow startCol grid dict) :
    MIN_WORD_LENGTH ≤ w.length ∧ w.length ≤ MAX_WORD_LENGTH := by
  unfold findWordsFromCell at hw
  rw [List.mem_insertionSort] at hw
  cases hrun : searchLoop grid dict searchFuel (initStack startRow startCol grid dict) [] with
  | none => rw [hrun] at hw; simp at hw
  | some res =>
    rw [hrun] at hw
    exact searchLoop_found_bounds searchFuel _ [] res (by simp) hrun w hw

/-- Witness for C4: the word `cats` reported at (0,0) of the demo grid. -/
theorem claim4_witness :
    ['c', 'a', 't', 's'] ∈ findWordsFromCell 0 0 demoGrid demoDict ∧
    (MIN_WORD_LENGTH ≤ (['c', 'a', 't', 's'] : Word).length ∧
     (['c', 'a', 't', 's'] : Word).length ≤ MAX_WORD_LENGTH) :=
  ⟨by decide, claim4 demoGrid demoDict 0 0 _ (by decide)⟩

theorem stackMeasure_cons (fr : Frame) (rest : List Frame) :
    stackMeasure (fr :: rest) = frameMeasure fr + stackMeasure rest := by
  simp [stackMeasure]

theorem stackMeasure_append (a b : List Frame) :
    stackMeasure (a ++ b) = stackMeasure a + stackMeasure b := by
  simp [stackMeasure]

theorem stackMeasure_le {s : List Frame} {X : Nat} (h : ∀ f ∈ s, frameMeasure f ≤ X) :
    stackMeasure s ≤ s.length * X := by
  induction s with
  | nil => simp [stackMeasure]
  | cons f rest ih =>
    rw [stackMeasure_cons]
    have h1 := h f (List.mem_cons_self f rest)
    have h2 := ih fun g hg => h g (List.mem_cons_of_mem f hg)
    simp only [List.length_cons]
    calc frameMeasure f + stackMeasure rest ≤ X + rest.length * X := by omega
    _ = (rest.length + 1) * X := by ring

theorem searchLoop_isSome {grid : Grid} {dict : DictIndex} :
    ∀ (fuel : Nat) (stack : List Frame) (found : List Word),
      (∀ f ∈ stack, 1 ≤ f.currentWord.length ∧ f.currentWord.length ≤ MAX_WORD_LENGTH) →
      stackMeasure stack ≤ fuel →
      (searchLoop grid dict fuel stack found).isSome = true := by
  intro fuel
  induction fuel with
  | zero =>
    intro stack found hinv hm
    cases stack with
    | nil => rw [searchLoop_nil]; rfl
    | cons fr rest =>
      exfalso
      have h1 : 1 ≤ frameMeasure fr := Nat.one_le_pow _ _ (by norm_num)
      rw [stackMeasure_cons] at hm
      omega
  | succ n ih =>
    intro stack found hinv hm
    cases stack with
    | nil => rw [searchLoop_nil]; rfl
    | cons fr rest =>
      rw [searchLoop_succ_cons]
      obtain ⟨hfr1, hfr2⟩ := hinv fr (List.mem_cons_self fr rest)
      rw [stackMeasure_cons] at hm
      by_cases hlt : fr.currentWord.length < MAX_WORD_LENGTH
      · rw [if_pos hlt]
        apply ih
        · intro f hf
          rcases List.mem_append.mp hf with hf | hf
          · have hl := expandFrame_currentWord_length hf
            omega
          · exact hinv f (List.mem_cons_of_mem fr hf)
        · rw [stackMeasure_append]
          have hchild : ∀ f ∈ expandFrame grid dict fr,
              frameMeasure f ≤ 9 ^ (MAX_WORD_LENGTH - fr.currentWord.length) := by
            intro f hf
            have hl := expandFrame_currentWord_length hf
            unfold frameMeasure
            rw [hl]
            have he : MAX_WORD_LENGTH + 1 - (fr.currentWord.length + 1) =
                MAX_WORD_LENGTH - fr.currentWord.length := by omega
            rw [he]
          have hsum := stackMeasure_le hchild
          have hlen8 := expandFrame_length_le grid dict fr
          have hsum8 : stackMeasure (expandFrame grid dict fr) ≤
              8 * 9 ^ (MAX_WORD_LENGTH - fr.currentWord.length) :=
            le_trans hsum (Nat.mul_le_mul_right _ hlen8)
          have hfrm : frameMeasure fr = 9 ^ (MAX_WORD_LENGTH - fr.currentWord.length) * 9 := by
            unfold frameMeasure
            have he : MAX_WORD_LENGTH + 1 - fr.currentWord.length =
                (MAX_WORD_LENGTH - fr.currentWord.length) + 1 := by omega
            rw [he, pow_succ]
          have hX : 1 ≤ 9 ^ (MAX_WORD_LENGTH - fr.currentWord.length) :=
            Nat.one_le_pow _ _ (by norm_num)
          rw [hfrm] at hm
          omega
      · rw [if_neg hlt]
        apply ih
        · intro f hf
          rcases List.mem_append.mp hf with hf | hf
          · cases hf
          · exact hinv f (List.mem_cons_of_mem fr hf)
        · have h1 : 1 ≤ frameMeasure fr := Nat.one_le_pow _ _ (by norm_num)
          rw [List.nil_append]
          omega

theorem initStack_inv (startRow startCol : Int) (grid : Grid) (dict : DictIndex) :
    ∀ f ∈ initStack startRow startCol grid dict,
      1 ≤ f.currentWord.length ∧ f.currentWord.length ≤ MAX_WORD_LENGTH := by
  intro f hf
  simp only [initStack] at hf
  split_ifs at hf with h
  · rcases List.mem_singleton.mp hf with rfl
    exact ⟨by simp, by simp [MAX_WORD_LENGTH]⟩
  · cases hf

theorem initStack_measure (startRow startCol : Int) (grid : Grid) (dict : DictIndex) :
    stackMeasure (initStack startRow startCol grid dict) ≤ searchFuel := by
  simp only [initStack]
  split_ifs with h
  · simp [stackMeasure, frameMeasure, searchFuel]
  · simp [stackMeasure]

/-- C9: the explicit-stack loop terminates — every pushed child's candidate is
one letter longer than its parent's, a parent below the length ceiling pushes
children within the ceiling, each frame pushes at most 8 children, and the
loop at fuel `searchFuel` always finishes (never exhausts its fuel) for every
grid, dictionary index, and starting cell. -/
theorem claim9 (grid : Grid) (dict : DictIndex) :
    (∀ fr g, g ∈ expandFrame grid dict fr →
      g.currentWord.length = fr.currentWord.length + 1) ∧
    (∀ fr g, g ∈ expandFrame grid dict fr → fr.currentWord.length < MAX_WORD_LENGTH →
      g.currentWord.length ≤ MAX_WORD_LENGTH) ∧
    (∀ fr, (expandFrame grid dict fr).length ≤ 8) ∧
    (∀ startRow startCol : Int,
      (searchLoop grid dict searchFuel (initStack startRow startCol grid dict) []).isSome
        = true) := by
  refine ⟨fun fr g hg => expandFrame_currentWord_length hg, ?_, ?_, ?_⟩
  · intro fr g hg hlt
    have := expandFrame_currentWord_length hg
    omega
  · exact expandFrame_length_le grid dict
  · intro startRow startCol
    exact searchLoop_isSome searchFuel _ []
      (initStack_inv startRow startCol grid dict)
      (initStack_measure startRow startCol grid dict)

/-- Witness for C9: the loop finishes on the demo grid from (0,0). -/
theorem claim9_witness :
    (searchLoop demoGrid demoDict searchFuel (initStack 0 0 demoGrid demoDict) []).isSome
      = true :=
  (claim9 demoGrid demoDict).2.2.2 0 0

theorem setAdd_of_not_mem {α : Type} [DecidableEq α] {s : List α} {a : α} (h : a ∉ s) :
    setAdd s a = s ++ [a] := by
  rw [setAdd, if_neg h]

theorem pathSpells_append (grid : Grid) (l : List (Int × Int)) (p : Int × Int) :
    pathSpells grid (l ++ [p]) = pathSpells grid l ++ [grid p.1 p.2] := by
  simp [pathSpells]

theorem goodFrame_expand {grid : Grid} {dict : DictIndex} {startRow startCol : Int}
    {fr g : Frame} (hfr : GoodFrame grid startRow startCol fr)
    (hg : g ∈ expandFrame grid dict fr) : GoodFrame grid startRow startCol g := by
  obtain ⟨ghead, glast, gnodup, gchain, gspell⟩ := hfr
  obtain ⟨d, hd, ⟨hval, hnv, _⟩, rfl⟩ := mem_expandFrame.mp hg
  have hvis : setAdd fr.visited (fr.row + d.1, fr.col + d.2) =
      fr.visited ++ [(fr.row + d.1, fr.col + d.2)] := setAdd_of_not_mem hnv
  have hne : fr.visited ≠ [] := by
    intro h
    rw [h] at glast
    simp at glast
  refine ⟨?_, ?_, ?_, ?_, ?_⟩
  · show (setAdd fr.visited (fr.row + d.1, fr.col + d.2)).head? = some (startRow, startCol)
    rw [hvis]
    cases hv : fr.visited with
    | nil => exact absurd hv hne
    | cons x xs =>
      rw [hv] at ghead
      simpa using ghead
  · show (setAdd fr.visited (fr.row + d.1, fr.col + d.2)).getLast? = some _
    rw [hvis, List.getLast?_concat]
  · show (setAdd fr.visited (fr.row + d.1, fr.col + d.2)).Nodup
    rw [hvis, List.nodup_append]
    refine ⟨gnodup, List.nodup_singleton _, ?_⟩
    intro x hx hx'
    rcases List.mem_singleton.mp hx' with rfl
    exact hnv hx
  · show (setAdd fr.visited (fr.row + d.1, fr.col + d.2)).Chain' adjacentStep
    rw [hvis, List.chain'_append]
    refine ⟨gchain, List.chain'_singleton _, ?_⟩
    intro x hx y hy
    rw [glast] at hx
    simp only [Option.mem_def, Option.some.injEq] at hx
    simp only [List.head?_cons, Option.mem_def, Option.some.injEq] at hy
    subst hx
    subst hy
    refine ⟨?_, hval⟩
    have hd' : ((fr.row + d.1) - fr.row, (fr.col + d.2) - fr.col) = d := by
      obtain ⟨d1, d2⟩ := d
      simp
    simpa [hd'] using hd
  · show pathSpells grid (setAdd fr.visited (fr.row + d.1, fr.col + d.2)) = _
    rw [hvis, pathSpells_append, gspell]

theorem goodFrame_explained {grid : Grid} {startRow startCol : Int} {fr : Frame}
    (hfr : GoodFrame grid startRow startCol fr) :
    ExplainedBy grid startRow startCol fr.currentWord := by
  obtain ⟨ghead, _, gnodup, gchain, gspell⟩ := hfr
  exact ⟨fr.visited, ghead, gnodup, gchain, gspell⟩

theorem searchLoop_explained {grid : Grid} {dict : DictIndex} {startRow startCol : Int} :
    ∀ (fuel : Nat) (stack : List Frame) (found res : List Word),
      (∀ f ∈ stack, GoodFrame grid startRow startCol f) →
      (∀ w ∈ found, ExplainedBy grid startRow startCol w) →
      searchLoop grid dict fuel stack found = some res →
      ∀ w ∈ res, ExplainedBy grid startRow startCol w := by
  intro fuel
  induction fuel with
  | zero =>
    intro stack found res hs hf hrun
    cases stack with
    | nil =>
      rw [searchLoop_nil] at hrun
      cases hrun
      exact hf
    | cons fr rest =>
      rw [searchLoop_zero_cons] at hrun
      cases hrun
  | succ n ih =>
    intro stack found res hs hf hrun
    cases stack with
    | nil =>
      rw [searchLoop_nil] at hrun
      cases hrun
      exact hf
    | cons fr rest =>
      rw [searchLoop_succ_cons] at hrun
      have hfr := hs fr (List.mem_cons_self fr rest)
      refine ih _ _ _ ?_ ?_ hrun
      · intro f hfm
        rcases List.mem_append.mp hfm with hfm | hfm
        · split_ifs at hfm with hlt
          · exact goodFrame_expand hfr hfm
          · cases hfm
        · exact hs f (List.mem_cons_of_mem fr hfm)
      · intro w hw
        split_ifs at hw with hcond
        · rcases mem_setAdd.mp hw with hw' | rfl
          · exact hf w hw'
          · exact goodFrame_explained hfr
        · exact hf w hw

theorem initStack_good (startRow startCol : Int) (grid : Grid) (dict : DictIndex) :
    ∀ f ∈ initStack startRow startCol grid dict, GoodFrame grid startRow startCol f := by
  intro f hf
  simp only [initStack] at hf
  split_ifs at hf with h
  · rcases List.mem_singleton.mp hf with rfl
    exact ⟨rfl, rfl, List.nodup_singleton _, List.chain'_singleton _, rfl⟩
  · cases hf

/-- C5: expanding any frame whose visited list is exactly its generating path
(start cell first, frame cell last, no duplicate coordinates, legal moves,
spelling the candidate) yields only frames with that same property — so no
frame with a repeated coordinate is ever pushed — and consequently every word
reported by the per-cell search is explained by a duplicate-free adjacent path
from the starting cell. -/
theorem claim5 (grid : Grid) (dict : DictIndex) (startRow startCol : Int) :
    (∀ fr g, GoodFrame grid startRow startCol fr → g ∈ expandFrame grid dict fr →
      GoodFrame grid startRow startCol g) ∧
    (∀ w, w ∈ findWordsFromCell startRow startCol grid dict →
      ExplainedBy grid startRow startCol w) := by
  constructor
  · exact fun fr g hfr hg => goodFrame_expand hfr hg
  · intro w hw
    unfold findWordsFromCell at hw
    rw [List.mem_insertionSort] at hw
    cases hrun : searchLoop grid dict searchFuel (initStack startRow startCol grid dict) [] with
    | none => rw [hrun] at hw; simp at hw
    | some res =>
      rw [hrun] at hw
      exact searchLoop_explained searchFuel _ [] res
        (initStack_good startRow startCol grid dict) (by simp) hrun w hw

/-- Witness for C5: `cats` at (0,0) of the demo grid is explained by a
duplicate-free adjacent path. -/
theorem claim5_witness :
    ['c', 'a', 't', 's'] ∈ findWordsFromCell 0 0 demoGrid demoDict ∧
    ExplainedBy demoGrid 0 0 ['c', 'a', 't', 's'] :=
  ⟨by decide, (claim5 demoGrid demoDict 0 0).2 _ (by decide)⟩

/-- C6 counterexample: a raw list whose only line has 9 letters yields an empty
`wordSet` but a non-empty `prefixSet`, yet `solve` refuses to search — the
empty-word-set error path leaves `dictionaryLoaded` unset, so the full-grid
search is never run, contradicting the claim that it succeeds with all-empty
results. -/
theorem claim6_counterexample :
    (loadDictionaryRun [demoLongLine]).index.wordSet = [] ∧
    (loadDictionaryRun [demoLongLine]).index.prefixSet ≠ [] ∧
    (loadDictionaryRun [demoLongLine]).dictionaryLoaded = false ∧
    solve (loadDictionaryRun [demoLongLine]) demoInputs = none :=
  ⟨by decide, by decide, by decide, rfl⟩

/-- C6 (amended): when the raw word list yields an empty `wordSet` — even with
a non-empty `prefixSet` — the empty-dictionary error path is taken:
`dictionaryLoaded` stays false and `solve` refuses to run the search. -/
theorem claim6 (rawLines inputs : List Word)
    (h : (loadDictionary rawLines).wordSet = []) :
    solve (loadDictionaryRun rawLines) inputs = none := by
  unfold solve loadDictionaryRun
  simp [h]

/-- Witness for C6 (amended) at the 9-letter line and the demo grid inputs. -/
theorem claim6_witness :
    (loadDictionary [demoLongLine]).wordSet = [] ∧
    solve (loadDictionaryRun [demoLongLine]) demoInputs = none :=
  ⟨by decide, claim6 [demoLongLine] demoInputs (by decide)⟩

theorem cleanWord_nil : cleanWord [] = [] := rfl

theorem getD_map_cleanWord (inputs : List Word) (i : Nat) :
    (inputs.map cleanWord).getD i [] = cleanWord (inputs.getD i []) := by
  rcases Nat.lt_or_ge i inputs.length with h | h
  · rw [List.getD_eq_getElem?_getD, List.getElem?_map, List.getElem?_eq_getElem h]
    rw [List.getD_eq_getElem?_getD, List.getElem?_eq_getElem h]
    rfl
  · rw [List.getD_eq_default _ _ (by simpa using h), List.getD_eq_default _ _ h, cleanWord_nil]

/-- C8: grid construction fails exactly when the supplied cell count is not
`GRID_SIZE²` or some cell does not clean to a single letter `a`..`z`; on
success it returns the `GRID_SIZE × GRID_SIZE` grid of cleaned letters
populated in row-major order. -/
theorem claim8 (inputs : List Word) :
    (getGridLetters inputs = none ↔
      inputs.length ≠ GRID_SIZE * GRID_SIZE ∨
      ∃ l ∈ inputs, ¬ ((cleanWord l).length = 1 ∧ ∀ c ∈ cleanWord l, 'a' ≤ c ∧ c ≤ 'z')) ∧
    (∀ g, getGridLetters inputs = some g →
      g = (List.range GRID_SIZE).map fun r =>
        (List.range GRID_SIZE).map fun c =>
          (cleanWord (inputs.getD (r * GRID_SIZE + c) [])).headD ' ') := by
  have hbad : ((inputs.map cleanWord).any (fun l =>
      !(decide (l.length = 1) && l.all (fun c => decide ('a' ≤ c) && decide (c ≤ 'z')))) = true)
      ↔ ∃ l ∈ inputs, ¬ ((cleanWord l).length = 1 ∧ ∀ c ∈ cleanWord l, 'a' ≤ c ∧ c ≤ 'z') := by
    rw [List.any_map]
    rw [List.any_eq_true]
    constructor
    · rintro ⟨l, hl, hp⟩
      refine ⟨l, hl, ?_⟩
      intro ⟨h1, h2⟩
      simp only [Function.comp_apply, Bool.not_eq_true', Bool.and_eq_false_iff] at hp
      rcases hp with hp | hp
      · simp [h1] at hp
      · rw [List.all_eq_false] at hp
        obtain ⟨c, hc, hcp⟩ := hp
        have := h2 c hc
        simp [this.1, this.2] at hcp
    · rintro ⟨l, hl, hp⟩
      refine ⟨l, hl, ?_⟩
      simp only [Function.comp_apply, Bool.not_eq_true', Bool.and_eq_false_iff]
      by_cases h1 : (cleanWord l).length = 1
      · right
        rw [List.all_eq_false]
        by_contra hall
        push_neg at hall
        refine hp ⟨h1, fun c hc => ?_⟩
        have := hall c hc
        simp only [Bool.not_eq_false, Bool.and_eq_true, decide_eq_true_eq] at this
        exact this
      · left
        simp [h1]
  simp only [getGridLetters]
  split_ifs with h1 h2
  · constructor
    · simp only [true_iff]
      exact Or.inl h1
    · intro g hg
      cases hg
  · constructor
    · simp only [true_iff]
      exact Or.inr (hbad.mp h2)
    · intro g hg
      cases hg
  · constructor
    · simp only [reduceCtorEq, false_iff]
      push_neg
      refine ⟨not_ne_iff.mp h1, ?_⟩
      intro l hl
      by_contra hc
      exact h2 (hbad.mpr ⟨l, hl, hc⟩)
    · intro g hg
      rw [Option.some_inj] at hg
      subst hg
      apply List.map_congr_left
      intro r _
      apply List.map_congr_left
      intro c _
      rw [getD_map_cleanWord]

/-- Witness for C8's success side at the demo inputs. -/
theorem claim8_witness :
    getGridLetters demoInputs = some demoRows ∧
    demoRows = (List.range GRID_SIZE).map (fun r =>
      (List.range GRID_SIZE).map fun c =>
        (cleanWord (demoInputs.getD (r * GRID_SIZE + c) [])).headD ' ') :=
  ⟨by decide, (claim8 demoInputs).2 demoRows (by decide)⟩

theorem mem_foldl_setAdd {α : Type} [DecidableEq α] :
    ∀ (ws s : List α) (a : α), a ∈ ws.foldl setAdd s ↔ a ∈ s ∨ a ∈ ws := by
  intro ws
  induction ws with
  | nil => simp
  | cons w ws ih =>
    intro s a
    rw [List.foldl_cons, ih, mem_setAdd]
    simp only [List.mem_cons]
    tauto

theorem foldl_setAdd_nodup {α : Type} [DecidableEq α] :
    ∀ (ws s : List α), s.Nodup → (ws.foldl setAdd s).Nodup := by
  intro ws
  induction ws with
  | nil => exact fun s h => h
  | cons w ws ih =>
    intro s h
    rw [List.foldl_cons]
    exact ih _ (setAdd_nodup h)

theorem foldl_solveStep_fst (grid : Grid) (dict : DictIndex) :
    ∀ (cells : List (Nat × Nat)) (acc : List (List Char × List Word) × List Word × Nat),
      (cells.foldl (solveStep grid dict) acc).1 =
        acc.1 ++ cells.filterMap fun rc =>
          if (findWordsFromCell rc.1 rc.2 grid dict).isEmpty then none
          else some (keyOf rc.1 rc.2, findWordsFromCell rc.1 rc.2 grid dict) := by
  intro cells
  induction cells with
  | nil => simp
  | cons rc cells ih =>
    intro acc
    rw [List.foldl_cons, List.filterMap_cons, ih]
    simp only [solveStep]
    split_ifs with hw
    · simp [hw]
    · simp [hw]

theorem foldl_solveStep_unique_mem (grid : Grid) (dict : DictIndex) :
    ∀ (cells : List (Nat × Nat)) (acc : List (List Char × List Word) × List Word × Nat)
      (a : Word),
      a ∈ (cells.foldl (solveStep grid dict) acc).2.1 ↔
        a ∈ acc.2.1 ∨ ∃ rc ∈ cells, a ∈ findWordsFromCell rc.1 rc.2 grid dict := by
  intro cells
  induction cells with
  | nil => simp
  | cons rc cells ih =>
    intro acc a
    rw [List.foldl_cons, ih]
    simp only [solveStep]
    split_ifs with hw
    · have hnil : findWordsFromCell rc.1 rc.2 grid dict = [] := List.isEmpty_iff.mp hw
      simp only [List.mem_cons]
      constructor
      · rintro (h | ⟨e, he, hm⟩)
        · exact Or.inl h
        · exact Or.inr ⟨e, Or.inr he, hm⟩
      · rintro (h | ⟨e, rfl | he, hm⟩)
        · exact Or.inl h
        · rw [hnil] at hm
          cases hm
        · exact Or.inr ⟨e, he, hm⟩
    · rw [mem_foldl_setAdd]
      simp only [List.mem_cons]
      constructor
      · rintro ((h | hm) | ⟨e, he, hm⟩)
        · exact Or.inl h
        · exact Or.inr ⟨rc, Or.inl rfl, hm⟩
        · exact Or.inr ⟨e, Or.inr he, hm⟩
      · rintro (h | ⟨e, rfl | he, hm⟩)
        · exact Or.inl (Or.inl h)
        · exact Or.inl (Or.inr hm)
        · exact Or.inr ⟨e, he, hm⟩

theorem foldl_solveStep_unique_nodup (grid : Grid) (dict : DictIndex) :
    ∀ (cells : List (Nat × Nat)) (acc : List (List Char × List Word) × List Word × Nat),
      acc.2.1.Nodup → (cells.foldl (solveStep grid dict) acc).2.1.Nodup := by
  intro cells
  induction cells with
  | nil => exact fun acc h => h
  | cons rc cells ih =>
    intro acc h
    rw [List.foldl_cons]
    apply ih
    simp only [solveStep]
    split_ifs with hw
    · exact h
    · exact foldl_setAdd_nodup _ _ h

theorem foldl_solveStep_count (grid : Grid) (dict : DictIndex) :
    ∀ (cells : List (Nat × Nat)) (acc : List (List Char × List Word) × List Word × Nat),
      (cells.foldl (solveStep grid dict) acc).2.2 =
        acc.2.2 + (cells.map fun rc => (findWordsFromCell rc.1 rc.2 grid dict).length).sum := by
  intro cells
  induction cells with
  | nil => simp
  | cons rc cells ih =>
    intro acc
    rw [List.foldl_cons, ih]
    simp only [solveStep, List.map_cons, List.sum_cons]
    split_ifs with hw
    · have hnil : findWordsFromCell rc.1 rc.2 grid dict = [] := List.isEmpty_iff.mp hw
      rw [hnil]
      simp
    · simp
      omega

theorem filterMap_keys (grid : Grid) (dict : DictIndex) :
    ∀ cells : List (Nat × Nat),
      ((cells.filterMap fun rc =>
          if (findWordsFromCell rc.1 rc.2 grid dict).isEmpty then none
          else some (keyOf rc.1 rc.2, findWordsFromCell rc.1 rc.2 grid dict)).map Prod.fst) =
        (cells.filter fun rc => !(findWordsFromCell rc.1 rc.2 grid dict).isEmpty).map
          fun rc => keyOf rc.1 rc.2 := by
  intro cells
  induction cells with
  | nil => simp
  | cons rc cells ih =>
    by_cases hw : (findWordsFromCell rc.1 rc.2 grid dict).isEmpty = true
    · rw [List.filterMap_cons_none (f := fun rc : Nat × Nat =>
          if (findWordsFromCell rc.1 rc.2 grid dict).isEmpty = true then none
          else some (keyOf rc.1 rc.2, findWordsFromCell rc.1 rc.2 grid dict))
          (by simp only [hw, if_pos]), List.filter_cons, if_neg (by simp [hw]), ih]
    · have hsome : (if (findWordsFromCell rc.1 rc.2 grid dict).isEmpty = true then none
          else some (keyOf rc.1 rc.2, findWordsFromCell rc.1 rc.2 grid dict)) =
          some (keyOf rc.1 rc.2, findWordsFromCell rc.1 rc.2 grid dict) := if_neg hw
      rw [List.filterMap_cons_some (f := fun rc : Nat × Nat =>
          if (findWordsFromCell rc.1 rc.2 grid dict).isEmpty = true then none
          else some (keyOf rc.1 rc.2, findWordsFromCell rc.1 rc.2 grid dict)) hsome,
        List.filter_cons, if_pos (by simp [hw]), List.map_cons, List.map_cons, ih]

theorem cellList_keys_pairwise :
    cellList.Pairwise fun a b => lexRel (keyOf a.1 a.2) (keyOf b.1 b.2) := by
  decide

/-- C7: for every grid and dictionary index, the full-grid aggregation counts
unique words as the size of the union of the per-cell word sets, counts
instances as the sum of the per-cell set sizes, and presents the
starting-coordinate keys sorted in row-major (row, then column) order. -/
theorem claim7 (grid : Grid) (dict : DictIndex) :
    (searchAll grid dict).uniqueWords.length =
      ((cellList.map fun rc => findWordsFromCell rc.1 rc.2 grid dict).flatten).dedup.length ∧
    (searchAll grid dict).totalInstances =
      (cellList.map fun rc => (findWordsFromCell rc.1 rc.2 grid dict).length).sum ∧
    (searchAll grid dict).sortedKeys =
      (cellList.filter fun rc => !(findWordsFromCell rc.1 rc.2 grid dict).isEmpty).map
        fun rc => keyOf rc.1 rc.2 := by
  refine ⟨?_, ?_, ?_⟩
  · have hmem : ∀ a, a ∈ (searchAll grid dict).uniqueWords ↔
        a ∈ ((cellList.map fun rc => findWordsFromCell rc.1 rc.2 grid dict).flatten).dedup := by
      intro a
      rw [List.mem_dedup, List.mem_flatten]
      simp only [searchAll]
      rw [foldl_solveStep_unique_mem]
      simp only [List.not_mem_nil, false_or, List.mem_map]
      constructor
      · rintro ⟨rc, hrc, hm⟩
        exact ⟨findWordsFromCell rc.1 rc.2 grid dict, ⟨rc, hrc, rfl⟩, hm⟩
      · rintro ⟨L, ⟨rc, hrc, rfl⟩, hm⟩
        exact ⟨rc, hrc, hm⟩
    have h1 : (searchAll grid dict).uniqueWords.Nodup := by
      simp only [searchAll]
      exact foldl_solveStep_unique_nodup grid dict cellList _ List.nodup_nil
    exact ((List.perm_ext_iff_of_nodup h1 (List.nodup_dedup _)).mpr hmem).length_eq
  · simp only [searchAll]
    rw [foldl_solveStep_count]
    simp
  · simp only [searchAll]
    rw [foldl_solveStep_fst, List.nil_append, filterMap_keys]
    apply List.Sorted.insertionSort_eq
    exact (List.pairwise_map).mpr (cellList_keys_pairwise.filter _)

end Resquare
